import Mathlib

/-!
Verification of the greedy decoding driver in `src/generate.py` of the
`small-llm` repository.

The repository's only original logic is `generate_text`: an autoregressive
loop that truncates the token sequence to the last `context_length` tokens,
runs a black-box model forward pass, takes the last position's logits,
softmaxes them, picks the arg-max token id, and appends it. A thin
interactive loop (`main`) drives it with `max_new_tokens = 6`.

The model, tokenizer and tensor runtime are external collaborators; they are
embedded as opaque-to-us function parameters. The driver is used with batch
size 1 (`main` unsqueezes a single sequence), so the embedding works on a
single token sequence `List ℕ`; the model maps an input sequence to one
logits row per position (`List (List ℝ)`). Logits are embedded as real
numbers: the code's softmax is `exp`-based normalization, stated here over ℝ.
-/

/-- The external language model: maps a token-id sequence to one logits row
(a score per vocabulary entry) for every input position, as in the shape
contract (batch, num_tokens) → (batch, num_tokens, vocab_size) at batch 1. -/
abbrev Model : Type := List ℕ → List (List ℝ)

/-- Embedding of `token_ids[:, -context_length:]` (Python slice semantics at
batch 1): for `context_length = 0` the slice `[-0:]` is `[0:]`, the whole
sequence; otherwise it is the last `min (length, context_length)` elements. -/
def truncateContext (tokenIds : List ℕ) (contextLength : ℕ) : List ℕ :=
  if contextLength = 0 then tokenIds
  else tokenIds.drop (tokenIds.length - contextLength)

/-- Embedding of `logits[:, -1, :]` at batch 1: the last position's logits
row (the source indexes a nonempty model output; the default covers the
out-of-contract empty case). -/
def lastLogits (logits : List (List ℝ)) : List ℝ :=
  logits.getLastD []

/-- Embedding of `torch.softmax(logits, dim=-1)` on one row:
`softmax(x)_i = exp(x_i) / Σ_j exp(x_j)`. -/
noncomputable def softmax (logits : List ℝ) : List ℝ :=
  logits.map (fun x => Real.exp x / (logits.map Real.exp).sum)

/-- Scan underlying `argmax`: walks the remaining list with the running index
`i`, best index `best` and best value `bestVal`, replacing the best only on a
strictly larger value, so ties keep the earlier index. -/
def argmaxAux {α : Type} [LinearOrder α] : List α → ℕ → ℕ → α → ℕ
  | [], _, best, _ => best
  | x :: xs, i, best, bestVal =>
    if bestVal < x then argmaxAux xs (i + 1) i x
    else argmaxAux xs (i + 1) best bestVal

/-- Embedding of `torch.argmax(v, dim=-1)` on one row: the index of the first
maximal value (PyTorch returns the first occurrence; `0` on the
out-of-contract empty row). -/
def argmax {α : Type} [LinearOrder α] : List α → ℕ
  | [] => 0
  | x :: xs => argmaxAux xs 1 0 x

/-- One loop body's token selection in `generate_text`: forward pass on the
(already truncated) input, last position's logits, softmax, arg-max. -/
noncomputable def nextToken (model : Model) (realTokenIds : List ℕ) : ℕ :=
  argmax (softmax (lastLogits (model realTokenIds)))

/-- One iteration of the `generate_text` loop: truncate to the context
window, select the next token, and append it (`torch.cat`) to the full,
untruncated sequence. -/
noncomputable def generateStep (model : Model) (contextLength : ℕ)
    (tokenIds : List ℕ) : List ℕ :=
  tokenIds ++ [nextToken model (truncateContext tokenIds contextLength)]

/-- Embedding of `generate_text(model, token_ids, max_new_tokens,
context_length)`: run the loop body `max_new_tokens` times. -/
noncomputable def generate_text (model : Model) (tokenIds : List ℕ)
    (maxNewTokens contextLength : ℕ) : List ℕ :=
  match maxNewTokens with
  | 0 => tokenIds
  | n + 1 => generate_text model (generateStep model contextLength tokenIds) n contextLength

/-- Spec-comparison variant for the refinement claim: the same decoding loop
with the softmax normalization removed, arg-max taken directly on the raw
logits. -/
noncomputable def generateStepDirect (model : Model) (contextLength : ℕ)
    (tokenIds : List ℕ) : List ℕ :=
  tokenIds ++ [argmax (lastLogits (model (truncateContext tokenIds contextLength)))]

/-- Spec-comparison variant of `generate_text` built on `generateStepDirect`. -/
noncomputable def generate_text_direct (model : Model) (tokenIds : List ℕ)
    (maxNewTokens contextLength : ℕ) : List ℕ :=
  match maxNewTokens with
  | 0 => tokenIds
  | n + 1 => generate_text_direct model (generateStepDirect model contextLength tokenIds) n contextLength

/-- Embedding of Python's `user_input.lower()`: the input line's characters,
each lowercased (strings are modelled as their character sequences). -/
def lowercase (s : String) : List Char :=
  s.data.map Char.toLower

/-- Embedding of one turn of the interactive loop in `main`: if the input
line lowercased equals the exit sentinel `"exit"`, the loop breaks (no
encoding, no generation: `none`); otherwise the line is encoded, decoded
through `generate_text` with `max_new_tokens = 6` and the configured context
length, and the decoded text is the printed response (`some`). -/
noncomputable def sessionTurn (model : Model) (encode : String → List ℕ)
    (decode : List ℕ → String) (contextLength : ℕ) (userInput : String) :
    Option String :=
  if lowercase userInput = "exit".data then none
  else some (decode (generate_text model (encode userInput) 6 contextLength))

/-- A concrete model used only to instantiate witnesses. -/
noncomputable def constModel : Model :=
  fun tokenIds => tokenIds.map (fun _ => [(0 : ℝ), 1])

/-- A concrete encoder used only to instantiate witnesses. -/
def charEncode (s : String) : List ℕ :=
  s.data.map Char.toNat

/-- A concrete decoder used only to instantiate witnesses. -/
def constDecode (_ : List ℕ) : String :=
  ""

/-- A concrete probability vector with a tied maximum at indices 1 and 2,
used only to instantiate witnesses. -/
noncomputable def tieVector : List ℝ :=
  [0.2, 0.3, 0.3, 0.2]

/-! ### Basic loop lemmas -/

lemma generate_text_zero (model : Model) (tokenIds : List ℕ) (contextLength : ℕ) :
    generate_text model tokenIds 0 contextLength = tokenIds := rfl

lemma generate_text_succ (model : Model) (tokenIds : List ℕ) (n contextLength : ℕ) :
    generate_text model tokenIds (n + 1) contextLength =
      generate_text model (generateStep model contextLength tokenIds) n contextLength := rfl

lemma generateStep_length (model : Model) (contextLength : ℕ) (tokenIds : List ℕ) :
    (generateStep model contextLength tokenIds).length = tokenIds.length + 1 := by
  simp [generateStep]

lemma generate_text_length (model : Model) (n : ℕ) :
    ∀ (tokenIds : List ℕ) (contextLength : ℕ),
      (generate_text model tokenIds n contextLength).length = tokenIds.length + n := by
  induction n with
  | zero => intro tokenIds contextLength; rfl
  | succ n ih =>
    intro tokenIds contextLength
    rw [generate_text_succ, ih, generateStep_length]
    omega

lemma generate_text_append (model : Model) (n : ℕ) :
    ∀ (tokenIds : List ℕ) (contextLength : ℕ),
      ∃ g : List ℕ, generate_text model tokenIds n contextLength = tokenIds ++ g := by
  induction n with
  | zero => intro tokenIds contextLength; exact ⟨[], by simp [generate_text_zero]⟩
  | succ n ih =>
    intro tokenIds contextLength
    obtain ⟨g, hg⟩ := ih (generateStep model contextLength tokenIds) contextLength
    refine ⟨nextToken model (truncateContext tokenIds contextLength) :: g, ?_⟩
    rw [generate_text_succ, hg, generateStep]
    simp

/-! ### C1: the output is the seed extended by exactly `max_new_tokens` tokens -/

/-- C1: for every model, non-empty seed, non-negative `max_new_tokens` and
positive `context_length`, `generate_text` returns the seed extended by
exactly `max_new_tokens` appended tokens: the output is the seed followed by
some generated list of length `max_new_tokens`, so its length is the input
length plus `max_new_tokens`. -/
theorem generate_text_extends_seed (model : Model) (tokenIds : List ℕ)
    (maxNewTokens contextLength : ℕ) (_hne : tokenIds ≠ []) (_hc : 0 < contextLength) :
    (∃ g : List ℕ, g.length = maxNewTokens ∧
        generate_text model tokenIds maxNewTokens contextLength = tokenIds ++ g) ∧
      (generate_text model tokenIds maxNewTokens contextLength).length =
        tokenIds.length + maxNewTokens := by
  have hlen := generate_text_length model maxNewTokens tokenIds contextLength
  refine ⟨?_, hlen⟩
  obtain ⟨g, hg⟩ := generate_text_append model maxNewTokens tokenIds contextLength
  refine ⟨g, ?_, hg⟩
  have := hlen
  rw [hg, List.length_append] at this
  omega

/-- Witness for C1 at `tokenIds = [1]`, `maxNewTokens = 2`, `contextLength = 3`. -/
theorem generate_text_extends_seed_witness :
    ([1] : List ℕ) ≠ [] ∧ 0 < 3 ∧
      (∃ g : List ℕ, g.length = 2 ∧
          generate_text constModel [1] 2 3 = [1] ++ g) ∧
        (generate_text constModel [1] 2 3).length = ([1] : List ℕ).length + 2 :=
  ⟨by decide, by decide,
    (generate_text_extends_seed constModel [1] 2 3 (by decide) (by decide)).1,
    (generate_text_extends_seed constModel [1] 2 3 (by decide) (by decide)).2⟩

/-! ### C7: the seed is retained unchanged at the front of the output -/

/-- C7: for every call to `generate_text`, the first `tokenIds.length`
elements of the returned sequence are the seed, unchanged and in order:
truncation affects only the model input, never the retained sequence. -/
theorem generate_text_retains_seed (model : Model) (tokenIds : List ℕ)
    (maxNewTokens contextLength : ℕ) :
    (generate_text model tokenIds maxNewTokens contextLength).take tokenIds.length =
      tokenIds := by
  obtain ⟨g, hg⟩ := generate_text_append model maxNewTokens tokenIds contextLength
  rw [hg]
  exact List.take_left tokenIds g

/-! ### C10: with `context_length = 0` the slice keeps the whole sequence -/

/-- C10: called with `contextLength = 0` (outside the spec's positive-window
precondition), the truncation `token_ids[:, -0:]` selects the entire current
sequence, so every iteration's model input is the full untruncated
sequence. -/
theorem truncateContext_zero_full (model : Model) (tokenIds : List ℕ) :
    truncateContext tokenIds 0 = tokenIds ∧
      generateStep model 0 tokenIds = tokenIds ++ [nextToken model tokenIds] := by
  constructor
  · rfl
  · rfl

/-! ### C2: the model input is the min-length suffix, never exceeding the window -/

lemma truncateContext_of_pos (tokenIds : List ℕ) (contextLength : ℕ)
    (hc : 0 < contextLength) :
    truncateContext tokenIds contextLength =
      tokenIds.drop (tokenIds.length - contextLength) := by
  rw [truncateContext, if_neg (Nat.pos_iff_ne_zero.mp hc)]

/-- C2: in every iteration of the loop, the sequence passed to the model is
`truncateContext` of the current sequence (visible in `generateStep`), and
for a positive window that is the suffix of length
`min (current length) contextLength` of the current sequence — in particular
it never exceeds `contextLength` elements. -/
theorem model_input_is_window_suffix (model : Model) (tokenIds : List ℕ)
    (contextLength : ℕ) (hc : 0 < contextLength) :
    generateStep model contextLength tokenIds =
        tokenIds ++ [nextToken model (truncateContext tokenIds contextLength)] ∧
      truncateContext tokenIds contextLength =
        tokenIds.drop (tokenIds.length - contextLength) ∧
      (truncateContext tokenIds contextLength).length =
        min tokenIds.length contextLength ∧
      (truncateContext tokenIds contextLength).length ≤ contextLength := by
  refine ⟨rfl, truncateContext_of_pos tokenIds contextLength hc, ?_, ?_⟩
  · rw [truncateContext_of_pos tokenIds contextLength hc, List.length_drop]
    omega
  · rw [truncateContext_of_pos tokenIds contextLength hc, List.length_drop]
    omega

/-- Witness for C2 at the spec scenario: `contextLength = 2` and a seed of
length 5, where the model input for the first forward pass is exactly the
last two tokens. -/
theorem model_input_is_window_suffix_witness :
    0 < 2 ∧
      (generateStep constModel 2 [10, 11, 12, 13, 14] =
          [10, 11, 12, 13, 14] ++
            [nextToken constModel (truncateContext [10, 11, 12, 13, 14] 2)] ∧
        truncateContext [10, 11, 12, 13, 14] 2 =
          ([10, 11, 12, 13, 14] : List ℕ).drop (([10, 11, 12, 13, 14] : List ℕ).length - 2) ∧
        (truncateContext [10, 11, 12, 13, 14] 2).length =
          min ([10, 11, 12, 13, 14] : List ℕ).length 2 ∧
        (truncateContext [10, 11, 12, 13, 14] 2).length ≤ 2) ∧
      truncateContext [10, 11, 12, 13, 14] 2 = [13, 14] :=
  ⟨by decide, model_input_is_window_suffix constModel [10, 11, 12, 13, 14] 2 (by decide),
    by decide⟩

/-! ### C6: generation is deterministic -/

/-- C6: `generate_text` is deterministic: two calls with identical model,
seed sequence, `max_new_tokens` and `context_length` return identical
sequences; the embedding is a pure function of those four inputs, with no
randomness, temperature, or top-k/top-p filtering anywhere in the loop. -/
theorem generate_text_deterministic (model₁ model₂ : Model)
    (tokenIds₁ tokenIds₂ : List ℕ) (n₁ n₂ c₁ c₂ : ℕ)
    (hm : model₁ = model₂) (hi : tokenIds₁ = tokenIds₂) (hn : n₁ = n₂)
    (hc : c₁ = c₂) :
    generate_text model₁ tokenIds₁ n₁ c₁ = generate_text model₂ tokenIds₂ n₂ c₂ := by
  rw [hm, hi, hn, hc]

/-- Witness for C6 at a concrete model, seed `[1, 2]`, `maxNewTokens = 3`,
`contextLength = 4`. -/
theorem generate_text_deterministic_witness :
    generate_text constModel [1, 2] 3 4 = generate_text constModel [1, 2] 3 4 :=
  generate_text_deterministic constModel constModel [1, 2] [1, 2] 3 3 4 4
    rfl rfl rfl rfl

/-! ### C3: the generated suffix depends only on the trailing window -/

lemma window_after_append (ids : List ℕ) (t c : ℕ) (hc : 0 < c)
    (hlen : c ≤ ids.length) :
    (ids ++ [t]).drop ((ids ++ [t]).length - c) =
      (ids.drop (ids.length - c)).drop 1 ++ [t] := by
  have h1 : (ids ++ [t]).length - c = (ids.length - c) + 1 := by
    rw [List.length_append]
    simp only [List.length_singleton]
    omega
  rw [h1, List.drop_append_of_le_length (by omega), List.drop_drop]

lemma generate_text_drop_eq (model : Model) (c : ℕ) (hc : 0 < c) (n : ℕ) :
    ∀ ids₁ ids₂ : List ℕ, c ≤ ids₁.length → c ≤ ids₂.length →
      ids₁.drop (ids₁.length - c) = ids₂.drop (ids₂.length - c) →
      (generate_text model ids₁ n c).drop ids₁.length =
        (generate_text model ids₂ n c).drop ids₂.length := by
  induction n with
  | zero =>
    intro ids₁ ids₂ _ _ _
    simp [generate_text_zero]
  | succ n ih =>
    intro ids₁ ids₂ h1 h2 hw
    have hwin : truncateContext ids₂ c = truncateContext ids₁ c := by
      rw [truncateContext_of_pos _ _ hc, truncateContext_of_pos _ _ hc, hw]
    rw [generate_text_succ, generate_text_succ]
    have hstep₁ : generateStep model c ids₁ =
        ids₁ ++ [nextToken model (truncateContext ids₁ c)] := rfl
    have hstep₂ : generateStep model c ids₂ =
        ids₂ ++ [nextToken model (truncateContext ids₁ c)] := by
      rw [generateStep, hwin]
    rw [hstep₁, hstep₂]
    have key := ih (ids₁ ++ [nextToken model (truncateContext ids₁ c)])
      (ids₂ ++ [nextToken model (truncateContext ids₁ c)])
      (by rw [List.length_append]; omega)
      (by rw [List.length_append]; omega)
      (by rw [window_after_append _ _ _ hc h1, window_after_append _ _ _ hc h2, hw])
    obtain ⟨g₁, hg₁⟩ := generate_text_append model n
      (ids₁ ++ [nextToken model (truncateContext ids₁ c)]) c
    obtain ⟨g₂, hg₂⟩ := generate_text_append model n
      (ids₂ ++ [nextToken model (truncateContext ids₁ c)]) c
    rw [hg₁, hg₂, List.drop_left, List.drop_left] at key
    rw [hg₁, hg₂, List.append_assoc, List.append_assoc, List.drop_left, List.drop_left,
      key]

/-- C3: for two seed sequences longer than the (positive) context length that
agree on their last `contextLength` tokens, `generate_text` with the same
model, `maxNewTokens` and `contextLength` appends the same generated suffix
to both. -/
theorem generated_suffix_depends_only_on_window (model : Model)
    (ids₁ ids₂ : List ℕ) (maxNewTokens contextLength : ℕ)
    (hc : 0 < contextLength)
    (h1 : contextLength < ids₁.length) (h2 : contextLength < ids₂.length)
    (hw : ids₁.drop (ids₁.length - contextLength) =
      ids₂.drop (ids₂.length - contextLength)) :
    (generate_text model ids₁ maxNewTokens contextLength).drop ids₁.length =
      (generate_text model ids₂ maxNewTokens contextLength).drop ids₂.length :=
  generate_text_drop_eq model contextLength hc maxNewTokens ids₁ ids₂
    (le_of_lt h1) (le_of_lt h2) hw

/-- Witness for C3 at seeds `[9, 1, 2]` and `[7, 8, 1, 2]`, agreeing on
their last two tokens, with `contextLength = 2` and `maxNewTokens = 3`. -/
theorem generated_suffix_depends_only_on_window_witness :
    0 < 2 ∧ 2 < ([9, 1, 2] : List ℕ).length ∧ 2 < ([7, 8, 1, 2] : List ℕ).length ∧
      ([9, 1, 2] : List ℕ).drop (([9, 1, 2] : List ℕ).length - 2) =
        ([7, 8, 1, 2] : List ℕ).drop (([7, 8, 1, 2] : List ℕ).length - 2) ∧
      (generate_text constModel [9, 1, 2] 3 2).drop ([9, 1, 2] : List ℕ).length =
        (generate_text constModel [7, 8, 1, 2] 3 2).drop ([7, 8, 1, 2] : List ℕ).length :=
  ⟨by decide, by decide, by decide, by decide,
    generated_suffix_depends_only_on_window constModel [9, 1, 2] [7, 8, 1, 2] 3 2
      (by decide) (by decide) (by decide) (by decide)⟩

/-! ### C4: softmax is monotone, so arg-max of softmax equals raw arg-max -/

lemma argmaxAux_map {α β : Type} [LinearOrder α] [LinearOrder β]
    (f : α → β) (hf : StrictMono f) :
    ∀ (l : List α) (i best : ℕ) (bestVal : α),
      argmaxAux (l.map f) i best (f bestVal) = argmaxAux l i best bestVal := by
  intro l
  induction l with
  | nil => intro i best bestVal; rfl
  | cons x xs ih =>
    intro i best bestVal
    simp only [List.map_cons, argmaxAux]
    by_cases h : bestVal < x
    · rw [if_pos (hf h), if_pos h, ih]
    · rw [if_neg (fun hlt => h (hf.lt_iff_lt.mp hlt)), if_neg h, ih]

lemma argmax_map {α β : Type} [LinearOrder α] [LinearOrder β]
    (f : α → β) (hf : StrictMono f) (l : List α) :
    argmax (l.map f) = argmax l := by
  cases l with
  | nil => rfl
  | cons x xs =>
    simp only [List.map_cons, argmax]
    exact argmaxAux_map f hf xs 1 0 x

lemma sum_map_exp_pos (x : ℝ) (xs : List ℝ) :
    0 < ((x :: xs).map Real.exp).sum := by
  rw [List.map_cons, List.sum_cons]
  have hx := Real.exp_pos x
  have hxs : 0 ≤ (xs.map Real.exp).sum := by
    apply List.sum_nonneg
    intro y hy
    obtain ⟨z, _, hz⟩ := List.mem_map.mp hy
    rw [← hz]
    exact le_of_lt (Real.exp_pos z)
  linarith

lemma argmax_softmax (l : List ℝ) : argmax (softmax l) = argmax l := by
  cases l with
  | nil => rfl
  | cons x xs =>
    have hS := sum_map_exp_pos x xs
    have hmono : StrictMono (fun y : ℝ => Real.exp y / ((x :: xs).map Real.exp).sum) := by
      intro a b hab
      exact (div_lt_div_iff_of_pos_right hS).mpr (Real.exp_lt_exp.mpr hab)
    exact argmax_map _ hmono (x :: xs)

/-- C4: for every logits vector, the arg-max of the softmax of the logits
equals the arg-max of the raw logits, so the softmax normalization step is
redundant: the decoding loop with the softmax removed (`generate_text_direct`)
computes the same output sequence as `generate_text` on every input. -/
theorem softmax_argmax_redundant :
    (∀ l : List ℝ, argmax (softmax l) = argmax l) ∧
      ∀ (model : Model) (tokenIds : List ℕ) (maxNewTokens contextLength : ℕ),
        generate_text model tokenIds maxNewTokens contextLength =
          generate_text_direct model tokenIds maxNewTokens contextLength := by
  refine ⟨argmax_softmax, ?_⟩
  intro model tokenIds maxNewTokens
  induction maxNewTokens generalizing tokenIds with
  | zero => intro contextLength; rfl
  | succ n ih =>
    intro contextLength
    rw [generate_text_succ]
    have hstep : generateStep model contextLength tokenIds =
        generateStepDirect model contextLength tokenIds := by
      rw [generateStep, generateStepDirect, nextToken, argmax_softmax]
    rw [hstep]
    exact ih (generateStepDirect model contextLength tokenIds) contextLength

/-! ### C5: ties in the maximum are broken by the lowest index -/

lemma argmaxAux_spec {α : Type} [LinearOrder α] (d : α) :
    ∀ (xs : List α) (i best : ℕ) (bestVal : α),
      (argmaxAux xs i best bestVal = best ∧
          ∀ k, k < xs.length → xs.getD k d ≤ bestVal) ∨
        ∃ k, k < xs.length ∧ argmaxAux xs i best bestVal = i + k ∧
          bestVal < xs.getD k d ∧
          (∀ j, j < xs.length → xs.getD j d ≤ xs.getD k d) ∧
          ∀ j, j < k → xs.getD j d < xs.getD k d := by
  intro xs
  induction xs with
  | nil =>
    intro i best bestVal
    left
    exact ⟨rfl, fun k hk => absurd hk (by simp)⟩
  | cons x xs ih =>
    intro i best bestVal
    by_cases hx : bestVal < x
    · rcases ih (i + 1) i x with ⟨heq, hbound⟩ | ⟨k, hk, heq, hlt, hbound, hfirst⟩
      · right
        refine ⟨0, by simp, ?_, by simpa using hx, ?_, by omega⟩
        · rw [argmaxAux, if_pos hx, heq, Nat.add_zero]
        · intro j hj
          cases j with
          | zero => simp
          | succ j =>
            simp only [List.getD_cons_succ, List.getD_cons_zero]
            exact hbound j (by simpa using hj)
      · right
        refine ⟨k + 1, by simpa using hk, ?_, ?_, ?_, ?_⟩
        · rw [argmaxAux, if_pos hx, heq]
          omega
        · simp only [List.getD_cons_succ]
          exact lt_trans hx hlt
        · intro j hj
          cases j with
          | zero =>
            simp only [List.getD_cons_zero, List.getD_cons_succ]
            exact le_of_lt hlt
          | succ j =>
            simp only [List.getD_cons_succ]
            exact hbound j (by simpa using hj)
        · intro j hj
          cases j with
          | zero =>
            simp only [List.getD_cons_zero, List.getD_cons_succ]
            exact hlt
          | succ j =>
            simp only [List.getD_cons_succ]
            exact hfirst j (by omega)
    · rcases ih (i + 1) best bestVal with ⟨heq, hbound⟩ | ⟨k, hk, heq, hlt, hbound, hfirst⟩
      · left
        refine ⟨by rw [argmaxAux, if_neg hx]; exact heq, ?_⟩
        intro k hk
        cases k with
        | zero => simpa using not_lt.mp hx
        | succ k =>
          simp only [List.getD_cons_succ]
          exact hbound k (by simpa using hk)
      · right
        refine ⟨k + 1, by simpa using hk, ?_, ?_, ?_, ?_⟩
        · rw [argmaxAux, if_neg hx, heq]
          omega
        · simp only [List.getD_cons_succ]
          exact hlt
        · intro j hj
          cases j with
          | zero =>
            simp only [List.getD_cons_zero, List.getD_cons_succ]
            exact le_trans (not_lt.mp hx) (le_of_lt hlt)
          | succ j =>
            simp only [List.getD_cons_succ]
            exact hbound j (by simpa using hj)
        · intro j hj
          cases j with
          | zero =>
            simp only [List.getD_cons_zero, List.getD_cons_succ]
            exact lt_of_le_of_lt (not_lt.mp hx) hlt
          | succ j =>
            simp only [List.getD_cons_succ]
            exact hfirst j (by omega)

lemma argmax_spec {α : Type} [LinearOrder α] (d : α) (l : List α) (h : l ≠ []) :
    argmax l < l.length ∧
      (∀ k, k < l.length → l.getD k d ≤ l.getD (argmax l) d) ∧
      ∀ k, k < argmax l → l.getD k d < l.getD (argmax l) d := by
  cases l with
  | nil => exact absurd rfl h
  | cons x xs =>
    rw [argmax]
    rcases argmaxAux_spec d xs 1 0 x with ⟨heq, hbound⟩ | ⟨k, hk, heq, hlt, hbound, hfirst⟩
    · rw [heq]
      refine ⟨by simp, ?_, by omega⟩
      intro k hk
      cases k with
      | zero => simp
      | succ k =>
        simp only [List.getD_cons_succ, List.getD_cons_zero]
        exact hbound k (by simpa using hk)
    · rw [heq, Nat.add_comm 1 k]
      refine ⟨by simpa using hk, ?_, ?_⟩
      · intro j hj
        cases j with
        | zero =>
          simp only [List.getD_cons_zero, List.getD_cons_succ]
          exact le_of_lt hlt
        | succ j =>
          simp only [List.getD_cons_succ]
          exact hbound j (by simpa using hj)
      · intro j hj
        cases j with
        | zero =>
          simp only [List.getD_cons_zero, List.getD_cons_succ]
          exact hlt
        | succ j =>
          simp only [List.getD_cons_succ]
          exact hfirst j (by omega)

/-- C5: for every (probability) vector in which the maximum value occurs at
more than one index — witnessed by two distinct positions `i < j` holding the
common maximal value — the index selected by the loop's `argmax` attains that
value, is at most the first of them, and strictly exceeds every entry before
it: it is the lowest index attaining the maximum, the first occurrence in a
stable max scan. -/
theorem argmax_breaks_ties_by_lowest_index (l : List ℝ) (i j : ℕ)
    (hij : i < j) (hj : j < l.length) (_heq : l.getD i 0 = l.getD j 0)
    (hmax : ∀ k, k < l.length → l.getD k 0 ≤ l.getD i 0) :
    l.getD (argmax l) 0 = l.getD i 0 ∧ argmax l ≤ i ∧
      ∀ k, k < argmax l → l.getD k 0 < l.getD i 0 := by
  have hne : l ≠ [] := by
    intro hnil
    rw [hnil] at hj
    simp at hj
  obtain ⟨hlen, hbound, hfirst⟩ := argmax_spec (0 : ℝ) l hne
  have hi : i < l.length := lt_trans hij hj
  have hval : l.getD (argmax l) 0 = l.getD i 0 :=
    le_antisymm (hmax (argmax l) hlen) (hbound i hi)
  refine ⟨hval, ?_, fun k hk => hval ▸ hfirst k hk⟩
  by_contra hgt
  have : l.getD i 0 < l.getD (argmax l) 0 := hfirst i (by omega)
  exact absurd hval (ne_of_gt this)

/-- Witness for C5 at `tieVector = [0.2, 0.3, 0.3, 0.2]`, whose maximum 0.3
is attained at the two indices 1 and 2. -/
theorem argmax_breaks_ties_by_lowest_index_witness :
    1 < 2 ∧ 2 < tieVector.length ∧ tieVector.getD 1 0 = tieVector.getD 2 0 ∧
      (∀ k, k < tieVector.length → tieVector.getD k 0 ≤ tieVector.getD 1 0) ∧
      (tieVector.getD (argmax tieVector) 0 = tieVector.getD 1 0 ∧
        argmax tieVector ≤ 1 ∧
        ∀ k, k < argmax tieVector → tieVector.getD k 0 < tieVector.getD 1 0) :=
  ⟨by decide, by norm_num [tieVector], by norm_num [tieVector],
    fun k hk => by
      have hk4 : k < 4 := by simpa [tieVector] using hk
      interval_cases k <;> norm_num [tieVector],
    argmax_breaks_ties_by_lowest_index tieVector 1 2 (by decide)
      (by norm_num [tieVector]) (by norm_num [tieVector])
      (fun k hk => by
        have hk4 : k < 4 := by simpa [tieVector] using hk
        interval_cases k <;> norm_num [tieVector])⟩

/-! ### C8 and C9: the interactive session loop -/

/-- C8: an input line that case-insensitively equals the exit sentinel
`"exit"` terminates the session turn without encoding or generating
(`none`); every other input line continues and produces a response
(`isSome`). -/
theorem session_exit_sentinel (model : Model) (encode : String → List ℕ)
    (decode : List ℕ → String) (contextLength : ℕ) (userInput : String) :
    (lowercase userInput = "exit".data →
        sessionTurn model encode decode contextLength userInput = none) ∧
      (lowercase userInput ≠ "exit".data →
        (sessionTurn model encode decode contextLength userInput).isSome = true) := by
  constructor
  · intro h
    rw [sessionTurn, if_pos h]
  · intro h
    rw [sessionTurn, if_neg h]
    rfl

/-- Witness for C8 at the inputs `"EXIT"` (terminates) and `"hello"`
(continues). -/
theorem session_exit_sentinel_witness :
    sessionTurn constModel charEncode constDecode 4 "EXIT" = none ∧
      (sessionTurn constModel charEncode constDecode 4 "hello").isSome = true :=
  ⟨(session_exit_sentinel constModel charEncode constDecode 4 "EXIT").1 (by decide),
    (session_exit_sentinel constModel charEncode constDecode 4 "hello").2 (by decide)⟩

/-- C9: for every non-exit input line, the session turn encodes the text,
runs the decoding loop with `max_new_tokens` fixed at exactly 6 and the
configured context length, decodes the resulting full sequence — the seed
plus 6 generated tokens — and that decoded text is the printed response. -/
theorem session_nonexit_generates (model : Model) (encode : String → List ℕ)
    (decode : List ℕ → String) (contextLength : ℕ) (userInput : String)
    (h : lowercase userInput ≠ "exit".data) :
    sessionTurn model encode decode contextLength userInput =
        some (decode (generate_text model (encode userInput) 6 contextLength)) ∧
      (generate_text model (encode userInput) 6 contextLength).length =
        (encode userInput).length + 6 := by
  refine ⟨?_, generate_text_length model 6 (encode userInput) contextLength⟩
  rw [sessionTurn, if_neg h]

/-- Witness for C9 at the non-exit input `"hello"`. -/
theorem session_nonexit_generates_witness :
    lowercase "hello" ≠ "exit".data ∧
      (sessionTurn constModel charEncode constDecode 4 "hello" =
          some (constDecode (generate_text constModel (charEncode "hello") 6 4)) ∧
        (generate_text constModel (charEncode "hello") 6 4).length =
          (charEncode "hello").length + 6) :=
  ⟨by decide,
    session_nonexit_generates constModel charEncode constDecode 4 "hello" (by decide)⟩
